import Mathlib

/-!
Verification of the Sudoku constraint-satisfaction engine (`sudoku.py`).

The board is a 9×9 grid of cells; a cell holds `0` (Empty) or a value in
`1..9`, modelled as `Fin 10`.  The Python code mutates a board in place;
here every mutating operation is modelled by explicitly threading the
board state: `solve` returns `(Bool × Board)` (return value, state of the
board after the call), `_count_solutions` returns `(Nat × Board)`, and so
on.  Recursion over the board is bounded by the number of empty cells
(at most 81), so each recursive search carries a fuel parameter; the
top-level entry points use fuel 82, which is never exhausted.
-/

set_option maxHeartbeats 4000000

namespace Sudoku

abbrev Cell := Fin 10

abbrev Board := Fin 9 → Fin 9 → Cell

/-- In-place assignment `board[r][c] = v`. -/
def update (b : Board) (r c : Fin 9) (v : Cell) : Board :=
  fun r' c' => if r' = r ∧ c' = c then v else b r' c'

def emptyBoard : Board := fun _ _ => 0

/-- The candidate list `list(range(1, size + 1))` for `size = 9`. -/
def nums : List Cell := [1, 2, 3, 4, 5, 6, 7, 8, 9]

/-- Computes `row - row % 3`, the top/left index of the 3×3 box containing index `i`. -/
def boxStart (i : Nat) : Nat := i - i % 3

/-- Model of `Sudoku.is_valid(board, row, col, value)`: the three early-return loops
(row scan, column scan, 3×3 box scan) translated as bounded conjunctions. -/
def isValid (b : Board) (row col : Fin 9) (v : Cell) : Bool :=
  decide (∀ c : Fin 9, ¬(b row c = v ∧ c ≠ col)) &&
  decide (∀ r : Fin 9, ¬(b r col = v ∧ r ≠ row)) &&
  decide (∀ r c : Fin 9,
    boxStart row.val ≤ r.val → r.val < boxStart row.val + 3 →
    boxStart col.val ≤ c.val → c.val < boxStart col.val + 3 →
    ¬(b r c = v ∧ ¬(r = row ∧ c = col)))

/-- Scan a list of coordinates for the first empty cell. -/
def findEmptyFrom (b : Board) : List (Fin 9 × Fin 9) → Option (Fin 9 × Fin 9)
  | [] => none
  | p :: rest => if b p.1 p.2 = 0 then some p else findEmptyFrom b rest

/-- All 81 coordinates in row-major order, as scanned by the nested loops. -/
def allCells : List (Fin 9 × Fin 9) :=
  (List.finRange 9).flatMap fun r => (List.finRange 9).map fun c => (r, c)

/-- Model of `Sudoku.find_empty_cell(board)`: row-major scan for the first `0`. -/
def findEmptyCell (b : Board) : Option (Fin 9 × Fin 9) :=
  findEmptyFrom b allCells

/-- The `for num in range(1, size+1)` loop body of `_count_solutions`:
place a candidate, add the recursive count, restore the cell, and return
early as soon as the running count exceeds 1. -/
def countNums (rec : Board → Nat × Board) (b : Board) (r c : Fin 9) :
    List Cell → Nat → Nat × Board
  | [], cnt => (cnt, b)
  | v :: rest, cnt =>
    if isValid b r c v then
      if 1 < cnt + (rec (update b r c v)).1 then
        (cnt + (rec (update b r c v)).1, update (rec (update b r c v)).2 r c 0)
      else
        countNums rec (update (rec (update b r c v)).2 r c 0) r c rest
          (cnt + (rec (update b r c v)).1)
    else countNums rec b r c rest cnt

/-- Model of `Sudoku._count_solutions(board)` (recursive part), with fuel. -/
def countGo : Nat → Board → Nat × Board
  | 0, b => (0, b)
  | fuel + 1, b =>
    match findEmptyCell b with
    | none => (1, b)
    | some (r, c) => countNums (countGo fuel) b r c nums 0

/-- Model of `Sudoku._count_solutions()` called with `board=None`: the count is
computed on a private clone, so only the count is returned to the caller. -/
def countSolutions (b : Board) : Nat := (countGo 82 b).1

/-- The `for num in range(1, size+1)` loop body of `solve` (also the loop
of `_fill_board`, whose candidate list is shuffled): place a candidate,
recurse, and on recursive failure reset the cell to `0` and continue. -/
def tryCells (rec : Board → Bool × Board) (b : Board) (r c : Fin 9) :
    List Cell → Bool × Board
  | [] => (false, b)
  | v :: rest =>
    if isValid b r c v then
      if (rec (update b r c v)).1 then rec (update b r c v)
      else tryCells rec (update (rec (update b r c v)).2 r c 0) r c rest
    else tryCells rec b r c rest

/-- The shared recursive shape of `solve` and `_fill_board`: `cand` gives
the candidate list tried at the current board (`solve` uses ascending
`nums`; `_fill_board` uses a shuffled copy of `nums`). -/
def searchGo (cand : Board → List Cell) : Nat → Board → Bool × Board
  | 0, b => (false, b)
  | fuel + 1, b =>
    match findEmptyCell b with
    | none => (true, b)
    | some (r, c) => tryCells (searchGo cand fuel) b r c (cand b)

/-- Model of `Sudoku.solve(board)`: returns (return value, board state after). -/
def solve (b : Board) : Bool × Board := searchGo (fun _ => nums) 82 b

/-- The `squares_to_remove` computation of `generate_puzzle`. -/
def targetRemoved (difficulty : String) : Nat :=
  if difficulty = "easy" then 40
  else if difficulty = "medium" then 50
  else if difficulty = "hard" then 60
  else 40

/-- The removal loop of `generate_puzzle`: walk the shuffled coordinate
list, tentatively clear each cell, keep the clearing iff the clone-based
solution count is exactly 1, and break once the target is reached.
Returns (final board, removed count, coordinates left unvisited by the
break). -/
def removeCells (target : Nat) :
    List (Fin 9 × Fin 9) → Board → Nat → Board × Nat × List (Fin 9 × Fin 9)
  | [], b, k => (b, k, [])
  | p :: rest, b, k =>
    if target ≤ k then (b, k, p :: rest)
    else
      let temp := b p.1 p.2
      let b1 := update b p.1 p.2 0
      if countSolutions b1 ≠ 1 then
        removeCells target rest (update b1 p.1 p.2 temp) k
      else
        removeCells target rest b1 (k + 1)

/-- The result of `generate_puzzle`: `board` is `self.board` (the givens),
`solution` is `self.solution`, `original` is `self.original_puzzle`. -/
structure GenResult where
  board : Board
  solution : Board
  original : Board

/-- Model of `Sudoku.generate_puzzle(difficulty)`.  Here `sh` models `random.shuffle`
applied to the candidate list inside `_fill_board` (one shuffled list per
visited board state), and `cells` models the shuffled coordinate list.
`generate_board` starts from an all-zero board, fills it, and stores a
copy as the solution; then cells are removed. -/
def generatePuzzle (sh : Board → List Cell) (cells : List (Fin 9 × Fin 9))
    (difficulty : String) : GenResult :=
  let fillRes := searchGo sh 82 emptyBoard
  let sol := fillRes.2
  let res := removeCells (targetRemoved difficulty) cells sol 0
  { board := res.1, solution := sol, original := res.1 }

/-- The move branch of `Sudoku.play`: after the range checks, a move on a
cell that is non-empty in the original puzzle is rejected; otherwise the
move is applied iff `is_valid` accepts it. -/
def playMove (original b : Board) (row col : Fin 9) (v : Cell) : Board :=
  if 1 ≤ v.val ∧ v.val ≤ 9 then
    if original row col ≠ 0 then b
    else if isValid b row col v then update b row col v
    else b
  else b

/-- Number of empty cells of a board. -/
def numEmpty (b : Board) : Nat :=
  (Finset.univ.filter fun p : Fin 9 × Fin 9 => b p.1 p.2 = 0).card

/-- A board is complete iff no cell is empty. -/
def Complete (b : Board) : Prop := ∀ r c, b r c ≠ 0

/-- A board is valid iff every non-empty cell passes `is_valid` against
its own value (no duplicate in any row, column, or box). -/
def ValidB (b : Board) : Prop :=
  ∀ r c, b r c ≠ 0 → isValid b r c (b r c) = true

instance : DecidablePred Complete := fun b =>
  decidable_of_iff (∀ r c, b r c ≠ 0) Iff.rfl

instance : DecidablePred ValidB := fun b =>
  decidable_of_iff (∀ r c, b r c ≠ 0 → isValid b r c (b r c) = true) Iff.rfl

/-- Board `s` is a (valid) completion of `b`: complete, valid, and agreeing
with `b` on every non-empty cell of `b`. -/
def SolutionOf (s b : Board) : Prop :=
  Complete s ∧ ValidB s ∧ ∀ r c, b r c ≠ 0 → s r c = b r c

/-- Cell `(r, c)` is a cell other than `(row, col)` lying in row `row`,
in column `col`, or in the 3×3 aligned box containing `(row, col)`. -/
def sees (row col r c : Fin 9) : Prop :=
  ¬(r = row ∧ c = col) ∧
    (r = row ∨ c = col ∨
      (boxStart r.val = boxStart row.val ∧ boxStart c.val = boxStart col.val))

/-- Row-major (lexicographic) order on coordinates. -/
def rmLt (p q : Fin 9 × Fin 9) : Prop :=
  p.1 < q.1 ∨ (p.1 = q.1 ∧ p.2 < q.2)

def boxIdx (i d : Fin 3) : Fin 9 := ⟨3 * i.val + d.val, by omega⟩

/-- Each value `1..9` occurs exactly once in row `r`. -/
def RowPerm (b : Board) (r : Fin 9) : Prop :=
  ∀ v : Cell, v ≠ 0 → ∃! c : Fin 9, b r c = v

/-- Each value `1..9` occurs exactly once in column `c`. -/
def ColPerm (b : Board) (c : Fin 9) : Prop :=
  ∀ v : Cell, v ≠ 0 → ∃! r : Fin 9, b r c = v

/-- Each value `1..9` occurs exactly once in the box with corner
`(3i, 3j)`. -/
def BoxPerm (b : Board) (i j : Fin 3) : Prop :=
  ∀ v : Cell, v ≠ 0 → ∃! p : Fin 3 × Fin 3, b (boxIdx i p.1) (boxIdx j p.2) = v

/-- Complete, and every row, column and box is a permutation of `1..9`. -/
def Solved (b : Board) : Prop :=
  Complete b ∧ (∀ r, RowPerm b r) ∧ (∀ c, ColPerm b c) ∧ ∀ i j, BoxPerm b i j

/-- Build a board from a list of rows (entries taken modulo 10). -/
def mkBoard (l : List (List Nat)) : Board :=
  fun r c => ⟨((l.getD r.val []).getD c.val 0) % 10, Nat.mod_lt _ (by omega)⟩

/-- A concrete complete valid board: `(3r + r/3 + c) % 9 + 1`. -/
def baseGrid : Board :=
  fun r c => ⟨(3 * r.val + r.val / 3 + c.val) % 9 + 1, by omega⟩

/-- A complete but invalid board: every cell holds 1. -/
def all1Board : Board := fun _ _ => 1

/-- The default (identity) shuffle oracle: candidates in ascending order. -/
def shId : Board → List Cell := fun _ => nums

/-- A board whose single empty cell `(0,0)` admits no candidate: values
`2..9` occur in row 0 and value `1` occurs in column 0. -/
def demoUnsolvable : Board :=
  mkBoard [[0, 2, 3, 4, 5, 6, 7, 8, 9],
    [1, 1, 1, 1, 1, 1, 1, 1, 1], [1, 1, 1, 1, 1, 1, 1, 1, 1],
    [1, 1, 1, 1, 1, 1, 1, 1, 1], [1, 1, 1, 1, 1, 1, 1, 1, 1],
    [1, 1, 1, 1, 1, 1, 1, 1, 1], [1, 1, 1, 1, 1, 1, 1, 1, 1],
    [1, 1, 1, 1, 1, 1, 1, 1, 1], [1, 1, 1, 1, 1, 1, 1, 1, 1]]

/-- The valid board `baseGrid` with cell `(8,8)` cleared. -/
def demoOneEmpty : Board := update baseGrid 8 8 0

/-- A board holding `5` at `(0,0)` and `0` everywhere else. -/
def demoLocked : Board := mkBoard [[5]]

theorem update_self (b : Board) (r c : Fin 9) (v : Cell) :
    update b r c v r c = v := by
  simp [update]

theorem update_other (b : Board) (r c : Fin 9) (v : Cell) {r' c' : Fin 9}
    (h : ¬(r' = r ∧ c' = c)) : update b r c v r' c' = b r' c' := by
  simp [update, h]

theorem update_restore (b : Board) (r c : Fin 9) (v : Cell) (h : b r c = v) :
    update b r c v = b := by
  funext r' c'
  by_cases h' : r' = r ∧ c' = c
  · obtain ⟨rfl, rfl⟩ := h'
    simp [update, h]
  · simp [update, h']

theorem update_update_restore (b : Board) (r c : Fin 9) (v : Cell) :
    update (update b r c v) r c (b r c) = b := by
  funext r' c'
  by_cases h' : r' = r ∧ c' = c
  · obtain ⟨rfl, rfl⟩ := h'
    simp [update]
  · simp [update, h']

theorem update_update_zero {b : Board} {r c : Fin 9} (v : Cell)
    (h : b r c = 0) : update (update b r c v) r c 0 = b := by
  have := update_update_restore b r c v
  rwa [h] at this

theorem boxStart_le (i : Nat) : boxStart i ≤ i := by
  unfold boxStart; omega

theorem lt_boxStart_add (i : Nat) : i < boxStart i + 3 := by
  unfold boxStart; omega

theorem boxStart_eq_of_range {s j : Nat} (h1 : boxStart s ≤ j)
    (h2 : j < boxStart s + 3) : boxStart j = boxStart s := by
  unfold boxStart at *; omega

theorem sees_symm {row col r c : Fin 9} (h : sees row col r c) :
    sees r c row col := by
  obtain ⟨hne, hrel⟩ := h
  refine ⟨fun h' => hne ⟨h'.1.symm, h'.2.symm⟩, ?_⟩
  rcases hrel with h | h | h
  · exact Or.inl h.symm
  · exact Or.inr (Or.inl h.symm)
  · exact Or.inr (Or.inr ⟨h.1.symm, h.2.symm⟩)

theorem isValid_true_iff (b : Board) (row col : Fin 9) (v : Cell) :
    isValid b row col v = true ↔ ∀ r c, sees row col r c → b r c ≠ v := by
  unfold isValid
  simp only [Bool.and_eq_true, decide_eq_true_eq]
  constructor
  · rintro ⟨⟨h1, h2⟩, h3⟩ r c ⟨hne, hrel⟩ hv
    rcases hrel with rfl | rfl | ⟨hbr, hbc⟩
    · by_cases hc : c = col
      · exact hne ⟨rfl, hc⟩
      · exact h1 c ⟨hv, hc⟩
    · by_cases hr : r = row
      · exact hne ⟨hr, rfl⟩
      · exact h2 r ⟨hv, hr⟩
    · exact h3 r c (hbr ▸ boxStart_le r.val) (hbr ▸ lt_boxStart_add r.val)
        (hbc ▸ boxStart_le c.val) (hbc ▸ lt_boxStart_add c.val) ⟨hv, hne⟩
  · intro h
    refine ⟨⟨?_, ?_⟩, ?_⟩
    · rintro c ⟨hv, hcc⟩
      exact h row c ⟨fun h' => hcc h'.2, Or.inl rfl⟩ hv
    · rintro r ⟨hv, hrr⟩
      exact h r col ⟨fun h' => hrr h'.1, Or.inr (Or.inl rfl)⟩ hv
    · rintro r c hr1 hr2 hc1 hc2 ⟨hv, hne⟩
      exact h r c ⟨hne, Or.inr (Or.inr
        ⟨boxStart_eq_of_range hr1 hr2, boxStart_eq_of_range hc1 hc2⟩)⟩ hv

theorem isValid_false_iff (b : Board) (row col : Fin 9) (v : Cell) :
    isValid b row col v = false ↔ ∃ r c, sees row col r c ∧ b r c = v := by
  rw [Bool.eq_false_iff, Ne, isValid_true_iff]
  push_neg
  constructor
  · rintro ⟨r, c, hsee, hv⟩
    exact ⟨r, c, hsee, hv⟩
  · rintro ⟨r, c, hsee, hv⟩
    exact ⟨r, c, hsee, hv⟩

theorem validB_iff (b : Board) :
    ValidB b ↔
      ∀ row col r c, sees row col r c → b row col ≠ 0 → b r c ≠ b row col := by
  constructor
  · intro h row col r c hsee hne
    exact (isValid_true_iff b row col (b row col)).1 (h row col hne) r c hsee
  · intro h r c hne
    rw [isValid_true_iff]
    intro r' c' hsee
    exact h r c r' c' hsee hne

theorem validB_update {b : Board} {r c : Fin 9} {v : Cell}
    (hb : ValidB b) (h0 : b r c = 0) (hv : isValid b r c v = true) :
    ValidB (update b r c v) := by
  rw [validB_iff] at hb ⊢
  intro row col r' c' hsee hne heq
  by_cases h1 : row = r ∧ col = c
  · obtain ⟨rfl, rfl⟩ := h1
    by_cases h2 : r' = row ∧ c' = col
    · exact hsee.1 h2
    · rw [update_self] at hne heq
      rw [update_other _ _ _ _ h2] at heq
      exact (isValid_true_iff b row col v).1 hv r' c' hsee heq
  · rw [update_other _ _ _ _ h1] at hne heq
    by_cases h2 : r' = r ∧ c' = c
    · obtain ⟨rfl, rfl⟩ := h2
      rw [update_self] at heq
      exact (isValid_true_iff b r' c' v).1 hv row col (sees_symm hsee) heq.symm
    · rw [update_other _ _ _ _ h2] at heq
      exact hb row col r' c' hsee hne heq

theorem validB_of_extends {g s : Board} (hs : ValidB s)
    (hext : ∀ r c, g r c ≠ 0 → s r c = g r c) : ValidB g := by
  rw [validB_iff] at hs ⊢
  intro row col r c hsee h0 heq
  have h0' : g r c ≠ 0 := by rw [heq]; exact h0
  have e1 := hext r c h0'
  have e2 := hext row col h0
  refine hs row col r c hsee ?_ ?_
  · rw [e2]; exact h0
  · rw [e1, e2, heq]

theorem solution_isValid {s b : Board} {r c : Fin 9} (hsol : SolutionOf s b)
    (_h0 : b r c = 0) : isValid b r c (s r c) = true ∧ s r c ≠ 0 := by
  obtain ⟨hcomp, hval, hext⟩ := hsol
  have hz := hcomp r c
  refine ⟨?_, hz⟩
  rw [isValid_true_iff]
  intro r' c' hsee heq
  have hz' : b r' c' ≠ 0 := by rw [heq]; exact hz
  have hsc : s r' c' = b r' c' := hext r' c' hz'
  have hv := (isValid_true_iff s r c (s r c)).1 (hval r c hz) r' c' hsee
  exact hv (by rw [hsc, heq])

theorem solutionOf_update_iff {s b : Board} {r c : Fin 9} {v : Cell}
    (h0 : b r c = 0) (hv : v ≠ 0) :
    SolutionOf s (update b r c v) ↔ SolutionOf s b ∧ s r c = v := by
  constructor
  · rintro ⟨hc, hval, hext⟩
    have hrc : s r c = v := by
      have := hext r c (by rw [update_self]; exact hv)
      rwa [update_self] at this
    refine ⟨⟨hc, hval, ?_⟩, hrc⟩
    intro r' c' hne
    by_cases h' : r' = r ∧ c' = c
    · obtain ⟨rfl, rfl⟩ := h'
      exact absurd h0 hne
    · have := hext r' c' (by rw [update_other _ _ _ _ h']; exact hne)
      rwa [update_other _ _ _ _ h'] at this
  · rintro ⟨⟨hc, hval, hext⟩, hrc⟩
    refine ⟨hc, hval, ?_⟩
    intro r' c' hne
    by_cases h' : r' = r ∧ c' = c
    · obtain ⟨rfl, rfl⟩ := h'
      rw [update_self, hrc]
    · rw [update_other _ _ _ _ h'] at hne ⊢
      exact hext r' c' hne

theorem no_solution_of_invalid {b : Board} {r c : Fin 9} {v : Cell}
    (h0 : b r c = 0) (hv : v ≠ 0) (hinv : isValid b r c v = false) :
    ¬∃ s, SolutionOf s (update b r c v) := by
  rintro ⟨s, hs⟩
  rw [solutionOf_update_iff h0 hv] at hs
  obtain ⟨hsol, hrc⟩ := hs
  have h := (solution_isValid hsol h0).1
  rw [hrc, hinv] at h
  exact Bool.false_ne_true h

theorem solutionOf_complete_iff {b : Board} (hc : Complete b) (hv : ValidB b)
    (s : Board) : SolutionOf s b ↔ s = b := by
  constructor
  · rintro ⟨_, _, hext⟩
    funext r c
    exact hext r c (hc r c)
  · rintro rfl
    exact ⟨hc, hv, fun _ _ _ => rfl⟩

instance : DecidableRel rmLt := fun p q =>
  decidable_of_iff (p.1 < q.1 ∨ (p.1 = q.1 ∧ p.2 < q.2)) Iff.rfl

theorem rmLt_irrefl (p : Fin 9 × Fin 9) : ¬ rmLt p p := by
  simp [rmLt]

theorem rmLt_asymm {p q : Fin 9 × Fin 9} (h : rmLt p q) : ¬ rmLt q p := by
  simp only [rmLt, Fin.lt_def, Fin.ext_iff] at *
  omega

theorem mem_allCells : ∀ p : Fin 9 × Fin 9, p ∈ allCells := by decide

theorem allCells_pairwise : List.Pairwise rmLt allCells := by decide

theorem findEmptyFrom_eq_none {b : Board} {l : List (Fin 9 × Fin 9)} :
    findEmptyFrom b l = none ↔ ∀ p ∈ l, b p.1 p.2 ≠ 0 := by
  induction l with
  | nil => simp [findEmptyFrom]
  | cons p rest ih =>
    by_cases h : b p.1 p.2 = 0
    · simp [findEmptyFrom, h]
    · simp [findEmptyFrom, h, ih]

theorem findEmptyFrom_eq_some {b : Board} {l : List (Fin 9 × Fin 9)}
    {p : Fin 9 × Fin 9} (h : findEmptyFrom b l = some p) :
    b p.1 p.2 = 0 ∧ ∃ l1 l2, l = l1 ++ p :: l2 ∧ ∀ q ∈ l1, b q.1 q.2 ≠ 0 := by
  induction l with
  | nil => simp [findEmptyFrom] at h
  | cons q rest ih =>
    by_cases hq : b q.1 q.2 = 0
    · rw [findEmptyFrom, if_pos hq, Option.some_inj] at h
      subst h
      exact ⟨hq, [], rest, rfl, by simp⟩
    · rw [findEmptyFrom, if_neg hq] at h
      obtain ⟨h0, l1, l2, rfl, hall⟩ := ih h
      refine ⟨h0, q :: l1, l2, rfl, ?_⟩
      intro x hx
      rcases List.mem_cons.1 hx with rfl | hx'
      · exact hq
      · exact hall x hx'

theorem findEmptyCell_none_iff (b : Board) :
    findEmptyCell b = none ↔ Complete b := by
  unfold findEmptyCell Complete
  rw [findEmptyFrom_eq_none]
  constructor
  · intro h r c
    exact h (r, c) (mem_allCells _)
  · intro h p _
    exact h p.1 p.2

theorem findEmptyCell_some {b : Board} {r c : Fin 9}
    (h : findEmptyCell b = some (r, c)) :
    b r c = 0 ∧ ∀ r' c', rmLt (r', c') (r, c) → b r' c' ≠ 0 := by
  obtain ⟨h0, l1, l2, hsplit, hall⟩ := findEmptyFrom_eq_some h
  refine ⟨h0, ?_⟩
  intro r' c' hlt
  have hmem : (r', c') ∈ allCells := mem_allCells _
  have hpw : List.Pairwise rmLt allCells := allCells_pairwise
  rw [hsplit] at hmem hpw
  rcases List.mem_append.1 hmem with h1 | h2
  · exact hall _ h1
  · rcases List.mem_cons.1 h2 with heq | h2'
    · rw [heq] at hlt
      exact absurd hlt (rmLt_irrefl _)
    · have hp2 := (List.pairwise_append.1 hpw).2.1
      have := (List.pairwise_cons.1 hp2).1 _ h2'
      exact absurd hlt (rmLt_asymm this)

theorem numEmpty_le (b : Board) : numEmpty b ≤ 81 := by
  unfold numEmpty
  calc (Finset.univ.filter fun p : Fin 9 × Fin 9 => b p.1 p.2 = 0).card
      ≤ (Finset.univ : Finset (Fin 9 × Fin 9)).card := Finset.card_filter_le _ _
    _ = 81 := by simp

theorem numEmpty_update_fill {b : Board} {r c : Fin 9} {v : Cell}
    (h0 : b r c = 0) (hv : v ≠ 0) :
    numEmpty (update b r c v) + 1 = numEmpty b := by
  unfold numEmpty
  have hset : (Finset.univ.filter fun p : Fin 9 × Fin 9 => update b r c v p.1 p.2 = 0)
      = (Finset.univ.filter fun p : Fin 9 × Fin 9 => b p.1 p.2 = 0).erase (r, c) := by
    ext ⟨p1, p2⟩
    simp only [Finset.mem_filter, Finset.mem_erase, Finset.mem_univ, true_and,
      ne_eq, Prod.mk.injEq]
    constructor
    · intro hp
      by_cases hpe : p1 = r ∧ p2 = c
      · obtain ⟨rfl, rfl⟩ := hpe
        rw [update_self] at hp
        exact absurd hp hv
      · rw [update_other _ _ _ _ hpe] at hp
        exact ⟨hpe, hp⟩
    · rintro ⟨hne, hp⟩
      rw [update_other _ _ _ _ hne]
      exact hp
  rw [hset, Finset.card_erase_of_mem (by simp [h0])]
  have hpos : 0 < (Finset.univ.filter fun p : Fin 9 × Fin 9 => b p.1 p.2 = 0).card :=
    Finset.card_pos.2 ⟨(r, c), by simp [h0]⟩
  omega

theorem numEmpty_update_zero {b : Board} {r c : Fin 9}
    (h0 : b r c ≠ 0) : numEmpty (update b r c 0) = numEmpty b + 1 := by
  unfold numEmpty
  have hset : (Finset.univ.filter fun p : Fin 9 × Fin 9 => update b r c 0 p.1 p.2 = 0)
      = insert (r, c) (Finset.univ.filter fun p : Fin 9 × Fin 9 => b p.1 p.2 = 0) := by
    ext ⟨p1, p2⟩
    simp only [Finset.mem_filter, Finset.mem_insert, Finset.mem_univ, true_and,
      Prod.mk.injEq]
    constructor
    · intro hp
      by_cases hpe : p1 = r ∧ p2 = c
      · exact Or.inl hpe
      · rw [update_other _ _ _ _ hpe] at hp
        exact Or.inr hp
    · rintro (⟨rfl, rfl⟩ | hp)
      · exact update_self _ _ _ _
      · by_cases hpe : p1 = r ∧ p2 = c
        · obtain ⟨rfl, rfl⟩ := hpe
          exact update_self _ _ _ _
        · rw [update_other _ _ _ _ hpe]
          exact hp
  rw [hset, Finset.card_insert_of_not_mem (by simp [h0])]

theorem numEmpty_lt_fuel (b : Board) : numEmpty b < 82 :=
  lt_of_le_of_lt (numEmpty_le b) (by omega)

theorem mem_nums : ∀ v : Cell, v ≠ 0 → v ∈ nums := by decide

theorem nums_nodup : nums.Nodup := by decide

theorem nums_nonzero : ∀ v ∈ nums, v ≠ (0 : Cell) := by decide

theorem tryCells_restore_frame {rec : Board → Bool × Board}
    (hrecRes : ∀ b', (rec b').1 = false → (rec b').2 = b')
    (hrecFrame : ∀ b' r' c', b' r' c' ≠ 0 → (rec b').2 r' c' = b' r' c')
    {b : Board} {r c : Fin 9} (h0 : b r c = 0) (vs : List Cell) :
    ((tryCells rec b r c vs).1 = false → (tryCells rec b r c vs).2 = b) ∧
      (∀ r' c', b r' c' ≠ 0 → (tryCells rec b r c vs).2 r' c' = b r' c') := by
  induction vs with
  | nil => exact ⟨fun _ => rfl, fun _ _ _ => rfl⟩
  | cons v rest ih =>
    rw [tryCells]
    by_cases hv : isValid b r c v = true
    · rw [if_pos hv]
      by_cases hres : (rec (update b r c v)).1 = true
      · rw [if_pos hres]
        constructor
        · intro hfalse
          rw [hfalse] at hres
          cases hres
        · intro r' c' hne
          have hne' : ¬(r' = r ∧ c' = c) := by
            rintro ⟨rfl, rfl⟩
            exact hne h0
          have hu : update b r c v r' c' ≠ 0 := by
            rw [update_other _ _ _ _ hne']
            exact hne
          have := hrecFrame (update b r c v) r' c' hu
          rw [this, update_other _ _ _ _ hne']
      · rw [if_neg hres]
        have hres2 : (rec (update b r c v)).2 = update b r c v :=
          hrecRes _ (by simpa using hres)
        rw [hres2, update_update_zero v h0]
        exact ih
    · rw [if_neg hv]
      exact ih

theorem searchGo_restore_frame (cand : Board → List Cell) :
    ∀ fuel b, ((searchGo cand fuel b).1 = false → (searchGo cand fuel b).2 = b) ∧
      (∀ r c, b r c ≠ 0 → (searchGo cand fuel b).2 r c = b r c) := by
  intro fuel
  induction fuel with
  | zero => exact fun b => ⟨fun _ => rfl, fun _ _ _ => rfl⟩
  | succ fuel ih =>
    intro b
    rcases hfe : findEmptyCell b with - | ⟨r, c⟩
    · constructor
      · intro h
        simp [searchGo, hfe] at h
      · intro r' c' _
        simp only [searchGo, hfe]
    · have h0 := (findEmptyCell_some hfe).1
      simp only [searchGo, hfe]
      exact tryCells_restore_frame (fun b' => (ih b').1)
        (fun b' r' c' => (ih b').2 r' c') h0 (cand b)

theorem tryCells_sound {rec : Board → Bool × Board}
    (hrecRes : ∀ b', (rec b').1 = false → (rec b').2 = b')
    (hrec : ∀ b', ValidB b' → (rec b').1 = true →
      Complete (rec b').2 ∧ ValidB (rec b').2)
    {b : Board} {r c : Fin 9} (hb : ValidB b) (h0 : b r c = 0) (vs : List Cell) :
    (tryCells rec b r c vs).1 = true →
      Complete (tryCells rec b r c vs).2 ∧ ValidB (tryCells rec b r c vs).2 := by
  induction vs with
  | nil => intro h; cases h
  | cons v rest ih =>
    rw [tryCells]
    by_cases hv : isValid b r c v = true
    · rw [if_pos hv]
      by_cases hres : (rec (update b r c v)).1 = true
      · rw [if_pos hres]
        intro _
        exact hrec _ (validB_update hb h0 hv) hres
      · rw [if_neg hres]
        have hres2 : (rec (update b r c v)).2 = update b r c v :=
          hrecRes _ (by simpa using hres)
        rw [hres2, update_update_zero v h0]
        exact ih
    · rw [if_neg hv]
      exact ih

theorem searchGo_sound (cand : Board → List Cell) :
    ∀ fuel b, ValidB b → (searchGo cand fuel b).1 = true →
      Complete (searchGo cand fuel b).2 ∧ ValidB (searchGo cand fuel b).2 := by
  intro fuel
  induction fuel with
  | zero => intro b _ h; cases h
  | succ fuel ih =>
    intro b hb
    rcases hfe : findEmptyCell b with - | ⟨r, c⟩
    · simp only [searchGo, hfe]
      intro _
      exact ⟨(findEmptyCell_none_iff b).1 hfe, hb⟩
    · have h0 := (findEmptyCell_some hfe).1
      simp only [searchGo, hfe]
      exact tryCells_sound (fun b' => (searchGo_restore_frame cand fuel b').1)
        (fun b' => ih b') hb h0 (cand b)

theorem tryCells_complete {rec : Board → Bool × Board} {fuel : Nat}
    (hrecRes : ∀ b', (rec b').1 = false → (rec b').2 = b')
    (hrec : ∀ b', ValidB b' → numEmpty b' < fuel → (∃ s, SolutionOf s b') →
      (rec b').1 = true)
    {b : Board} {r c : Fin 9} (hb : ValidB b) (h0 : b r c = 0)
    (hfuel : numEmpty b < fuel + 1) (vs : List Cell) :
    (∃ s, SolutionOf s b ∧ s r c ∈ vs) → (tryCells rec b r c vs).1 = true := by
  induction vs with
  | nil => rintro ⟨s, -, hmem⟩; cases hmem
  | cons v rest ih =>
    rintro ⟨s, hs, hmem⟩
    rw [tryCells]
    by_cases hv : isValid b r c v = true
    · rw [if_pos hv]
      by_cases hres : (rec (update b r c v)).1 = true
      · rw [if_pos hres]
        exact hres
      · rw [if_neg hres]
        have hres2 : (rec (update b r c v)).2 = update b r c v :=
          hrecRes _ (by simpa using hres)
        rw [hres2, update_update_zero v h0]
        have hsv : s r c ≠ v := by
          intro heq
          have hvz : v ≠ 0 := by
            rw [← heq]
            exact hs.1 r c
          have hsol' : SolutionOf s (update b r c v) :=
            (solutionOf_update_iff h0 hvz).2 ⟨hs, heq⟩
          have hnum : numEmpty (update b r c v) < fuel := by
            have := numEmpty_update_fill h0 hvz
            omega
          exact hres (hrec _ (validB_update hb h0 hv) hnum ⟨s, hsol'⟩)
        apply ih
        refine ⟨s, hs, ?_⟩
        rcases List.mem_cons.1 hmem with heq | hmem'
        · exact absurd heq hsv
        · exact hmem'
    · rw [if_neg hv]
      have hsv : s r c ≠ v := by
        intro heq
        have := (solution_isValid hs h0).1
        rw [heq] at this
        rw [this] at hv
        exact hv rfl
      apply ih
      refine ⟨s, hs, ?_⟩
      rcases List.mem_cons.1 hmem with heq | hmem'
      · exact absurd heq hsv
      · exact hmem'

theorem searchGo_complete (cand : Board → List Cell)
    (hcand : ∀ b v, v ≠ (0 : Cell) → v ∈ cand b) :
    ∀ fuel b, ValidB b → numEmpty b < fuel → (∃ s, SolutionOf s b) →
      (searchGo cand fuel b).1 = true := by
  intro fuel
  induction fuel with
  | zero => intro b _ h _; omega
  | succ fuel ih =>
    rintro b hb hfuel ⟨s, hs⟩
    rcases hfe : findEmptyCell b with - | ⟨r, c⟩
    · simp [searchGo, hfe]
    · have h0 := (findEmptyCell_some hfe).1
      simp only [searchGo, hfe]
      apply tryCells_complete (fun b' => (searchGo_restore_frame cand fuel b').1)
        (fun b' => ih b') hb h0 hfuel
      exact ⟨s, hs, hcand b (s r c) (hs.1 r c)⟩

theorem countNums_restore {rec : Board → Nat × Board}
    (hrecRes : ∀ b', (rec b').2 = b')
    {b : Board} {r c : Fin 9} (h0 : b r c = 0) (vs : List Cell) (cnt : Nat) :
    (countNums rec b r c vs cnt).2 = b := by
  induction vs generalizing cnt with
  | nil => rfl
  | cons v rest ih =>
    simp only [countNums]
    by_cases hv : isValid b r c v = true
    · rw [if_pos hv, hrecRes, update_update_zero v h0]
      by_cases hc : 1 < cnt + (rec (update b r c v)).1
      · rw [if_pos hc]
      · rw [if_neg hc]
        exact ih _
    · rw [if_neg hv]
      exact ih _

theorem countGo_restore : ∀ fuel b, (countGo fuel b).2 = b := by
  intro fuel
  induction fuel with
  | zero => intro b; rfl
  | succ fuel ih =>
    intro b
    rcases hfe : findEmptyCell b with - | ⟨r, c⟩
    · simp only [countGo, hfe]
    · have h0 := (findEmptyCell_some hfe).1
      simp only [countGo, hfe]
      exact countNums_restore ih h0 nums 0

theorem pred_trichotomy {α : Sort _} (p : α → Prop) :
    (¬∃ x, p x) ∨ (∃! x, p x) ∨ ∃ x y, p x ∧ p y ∧ x ≠ y := by
  by_cases hex : ∃ x, p x
  · by_cases hu : ∃! x, p x
    · exact Or.inr (Or.inl hu)
    · obtain ⟨x, hx⟩ := hex
      by_contra hno
      push_neg at hno
      obtain ⟨-, -, hpair⟩ := hno
      exact hu ⟨x, hx, fun y hy => hpair y x hy hx⟩
  · exact Or.inl hex

theorem countNums_count {rec : Board → Nat × Board}
    (hrecRes : ∀ b', (rec b').2 = b')
    {b : Board} {r c : Fin 9}
    (hrec : ∀ v : Cell, v ≠ 0 → isValid b r c v = true →
      ((¬∃ s, SolutionOf s (update b r c v)) → (rec (update b r c v)).1 = 0) ∧
      ((∃! s, SolutionOf s (update b r c v)) → (rec (update b r c v)).1 = 1) ∧
      ((∃ s t, SolutionOf s (update b r c v) ∧ SolutionOf t (update b r c v) ∧
          s ≠ t) → 2 ≤ (rec (update b r c v)).1))
    (h0 : b r c = 0) :
    ∀ vs : List Cell, vs.Nodup → (∀ v ∈ vs, v ≠ (0 : Cell)) →
    ∀ cnt : Nat, cnt ≤ 1 →
    ((¬∃ s, SolutionOf s b ∧ s r c ∈ vs) → (countNums rec b r c vs cnt).1 = cnt) ∧
    ((∃! s, SolutionOf s b ∧ s r c ∈ vs) →
      (countNums rec b r c vs cnt).1 = cnt + 1) ∧
    ((∃ s t, (SolutionOf s b ∧ s r c ∈ vs) ∧ (SolutionOf t b ∧ t r c ∈ vs) ∧
        s ≠ t) → 2 ≤ (countNums rec b r c vs cnt).1) := by
  intro vs
  induction vs with
  | nil =>
    intro _ _ cnt _
    refine ⟨fun _ => rfl, ?_, ?_⟩
    · rintro ⟨s, ⟨-, hmem⟩, -⟩
      cases hmem
    · rintro ⟨s, t, ⟨-, hmem⟩, -⟩
      cases hmem
  | cons v rest ih =>
    intro hnd hnz cnt hcnt
    have hvnotin : v ∉ rest := (List.nodup_cons.1 hnd).1
    have hndr : rest.Nodup := (List.nodup_cons.1 hnd).2
    have hnzr : ∀ w ∈ rest, w ≠ (0 : Cell) := fun w hw =>
      hnz w (List.mem_cons_of_mem _ hw)
    have hvz : v ≠ (0 : Cell) := hnz v (List.mem_cons_self _ _)
    simp only [countNums]
    by_cases hv : isValid b r c v = true
    · rw [if_pos hv, hrecRes, update_update_zero v h0]
      have hbridge : ∀ s : Board,
          SolutionOf s (update b r c v) ↔ SolutionOf s b ∧ s r c = v :=
        fun s => solutionOf_update_iff h0 hvz
      rcases pred_trichotomy (fun s => SolutionOf s (update b r c v)) with
        hno | hone | htwo
      · -- the branch for v contributes no solution
        have hn0 : (rec (update b r c v)).1 = 0 := (hrec v hvz hv).1 hno
        rw [hn0, Nat.add_zero, if_neg (by omega)]
        have hnoval : ∀ s : Board, SolutionOf s b → s r c ≠ v := fun s hs heq =>
          hno ⟨s, (hbridge s).2 ⟨hs, heq⟩⟩
        obtain ⟨iha, ihb, ihc⟩ := ih hndr hnzr cnt hcnt
        refine ⟨?_, ?_, ?_⟩
        · intro hna
          apply iha
          rintro ⟨s, hs, hm⟩
          exact hna ⟨s, hs, List.mem_cons_of_mem _ hm⟩
        · rintro ⟨s, ⟨hs, hm⟩, hu⟩
          apply ihb
          refine ⟨s, ⟨hs, ?_⟩, fun t ⟨ht, htm⟩ =>
            hu t ⟨ht, List.mem_cons_of_mem _ htm⟩⟩
          rcases List.mem_cons.1 hm with heq | hm'
          · exact absurd heq (hnoval s hs)
          · exact hm'
        · rintro ⟨s, t, ⟨hs, hsm⟩, ⟨ht, htm⟩, hne⟩
          apply ihc
          refine ⟨s, t, ⟨hs, ?_⟩, ⟨ht, ?_⟩, hne⟩
          · rcases List.mem_cons.1 hsm with heq | hm'
            · exact absurd heq (hnoval s hs)
            · exact hm'
          · rcases List.mem_cons.1 htm with heq | hm'
            · exact absurd heq (hnoval t ht)
            · exact hm'
      · -- the branch for v contributes exactly one solution
        have hn1 : (rec (update b r c v)).1 = 1 := (hrec v hvz hv).2.1 hone
        rw [hn1]
        obtain ⟨s0, hs00, hu0⟩ := hone
        obtain ⟨hs0b, hs0v⟩ := (hbridge s0).1 hs00
        by_cases hc1 : 1 ≤ cnt
        · rw [if_pos (by omega)]
          refine ⟨?_, ?_, ?_⟩
          · intro hna
            exact absurd ⟨s0, hs0b, by rw [hs0v]; exact List.mem_cons_self _ _⟩ hna
          · intro _
            rfl
          · intro _
            omega
        · rw [if_neg (by omega)]
          have hcnt0 : cnt = 0 := by omega
          obtain ⟨iha, ihb, ihc⟩ := ih hndr hnzr (cnt + 1) (by omega)
          have hkey : ∀ x : Board, SolutionOf x b → x r c ∈ rest →
              2 ≤ (countNums rec b r c rest (cnt + 1)).1 := by
            intro x hx hxm
            rcases pred_trichotomy
                (fun y : Board => SolutionOf y b ∧ y r c ∈ rest) with
              hno' | hone' | htwo'
            · exact absurd ⟨x, hx, hxm⟩ hno'
            · rw [ihb hone']
              omega
            · exact ihc htwo'
          refine ⟨?_, ?_, ?_⟩
          · intro hna
            exact absurd ⟨s0, hs0b, by rw [hs0v]; exact List.mem_cons_self _ _⟩ hna
          · rintro ⟨s, ⟨hs, hm⟩, hu⟩
            have hss0 : s = s0 :=
              (hu s0 ⟨hs0b, by rw [hs0v]; exact List.mem_cons_self _ _⟩).symm
            apply iha
            rintro ⟨t, ht, htm⟩
            have hts : t = s := hu t ⟨ht, List.mem_cons_of_mem _ htm⟩
            rw [hts, hss0, hs0v] at htm
            exact hvnotin htm
          · rintro ⟨s, t, ⟨hs, hsm⟩, ⟨ht, htm⟩, hne⟩
            by_cases hsv : s r c = v
            · have hts : t r c ≠ v := by
                intro htv
                have h1 : s = s0 := hu0 s ((hbridge s).2 ⟨hs, hsv⟩)
                have h2 : t = s0 := hu0 t ((hbridge t).2 ⟨ht, htv⟩)
                exact hne (h1.trans h2.symm)
              rcases List.mem_cons.1 htm with heq | hm'
              · exact absurd heq hts
              · exact hkey t ht hm'
            · rcases List.mem_cons.1 hsm with heq | hm'
              · exact absurd heq hsv
              · exact hkey s hs hm'
      · -- the branch for v contributes two or more solutions
        have hn2 : 2 ≤ (rec (update b r c v)).1 := (hrec v hvz hv).2.2 htwo
        rw [if_pos (by omega)]
        obtain ⟨s, t, hs, ht, hne⟩ := htwo
        obtain ⟨hsb, hsv⟩ := (hbridge s).1 hs
        obtain ⟨htb, htv⟩ := (hbridge t).1 ht
        refine ⟨?_, ?_, ?_⟩
        · intro hna
          exact absurd ⟨s, hsb, by rw [hsv]; exact List.mem_cons_self _ _⟩ hna
        · rintro ⟨u, -, hu⟩
          have h1 : s = u := hu s ⟨hsb, by rw [hsv]; exact List.mem_cons_self _ _⟩
          have h2 : t = u := hu t ⟨htb, by rw [htv]; exact List.mem_cons_self _ _⟩
          exact absurd (h1.trans h2.symm) hne
        · intro _
          omega
    · rw [if_neg hv]
      have hnoval : ∀ s : Board, SolutionOf s b → s r c ≠ v := by
        intro s hs heq
        have := (solution_isValid hs h0).1
        rw [heq] at this
        rw [this] at hv
        exact hv rfl
      obtain ⟨iha, ihb, ihc⟩ := ih hndr hnzr cnt hcnt
      refine ⟨?_, ?_, ?_⟩
      · intro hna
        apply iha
        rintro ⟨s, hs, hm⟩
        exact hna ⟨s, hs, List.mem_cons_of_mem _ hm⟩
      · rintro ⟨s, ⟨hs, hm⟩, hu⟩
        apply ihb
        refine ⟨s, ⟨hs, ?_⟩, fun t ⟨ht, htm⟩ =>
          hu t ⟨ht, List.mem_cons_of_mem _ htm⟩⟩
        rcases List.mem_cons.1 hm with heq | hm'
        · exact absurd heq (hnoval s hs)
        · exact hm'
      · rintro ⟨s, t, ⟨hs, hsm⟩, ⟨ht, htm⟩, hne⟩
        apply ihc
        refine ⟨s, t, ⟨hs, ?_⟩, ⟨ht, ?_⟩, hne⟩
        · rcases List.mem_cons.1 hsm with heq | hm'
          · exact absurd heq (hnoval s hs)
          · exact hm'
        · rcases List.mem_cons.1 htm with heq | hm'
          · exact absurd heq (hnoval t ht)
          · exact hm'

theorem countGo_count : ∀ fuel b, ValidB b → numEmpty b < fuel →
    ((¬∃ s, SolutionOf s b) → (countGo fuel b).1 = 0) ∧
    ((∃! s, SolutionOf s b) → (countGo fuel b).1 = 1) ∧
    ((∃ s t, SolutionOf s b ∧ SolutionOf t b ∧ s ≠ t) →
      2 ≤ (countGo fuel b).1) := by
  intro fuel
  induction fuel with
  | zero => intro b _ h; omega
  | succ fuel ih =>
    intro b hb hfuel
    rcases hfe : findEmptyCell b with - | ⟨r, c⟩
    · have hcomp := (findEmptyCell_none_iff b).1 hfe
      simp only [countGo, hfe]
      refine ⟨?_, ?_, ?_⟩
      · intro hna
        exact absurd ⟨b, (solutionOf_complete_iff hcomp hb b).2 rfl⟩ hna
      · intro _
        trivial
      · rintro ⟨s, t, hs, ht, hne⟩
        rw [solutionOf_complete_iff hcomp hb] at hs ht
        exact absurd (hs.trans ht.symm) hne
    · have h0 := (findEmptyCell_some hfe).1
      simp only [countGo, hfe]
      have hrec : ∀ v : Cell, v ≠ 0 → isValid b r c v = true →
          ((¬∃ s, SolutionOf s (update b r c v)) →
            (countGo fuel (update b r c v)).1 = 0) ∧
          ((∃! s, SolutionOf s (update b r c v)) →
            (countGo fuel (update b r c v)).1 = 1) ∧
          ((∃ s t, SolutionOf s (update b r c v) ∧
              SolutionOf t (update b r c v) ∧ s ≠ t) →
            2 ≤ (countGo fuel (update b r c v)).1) := by
        intro v hvz hv
        apply ih
        · exact validB_update hb h0 hv
        · have := numEmpty_update_fill h0 hvz
          omega
      obtain ⟨ha, hb2, hc2⟩ :=
        countNums_count (countGo_restore fuel) hrec h0 nums nums_nodup
          nums_nonzero 0 (by omega)
      have hmem : ∀ s : Board, SolutionOf s b → s r c ∈ nums := fun s hs =>
        mem_nums _ (hs.1 r c)
      refine ⟨?_, ?_, ?_⟩
      · intro hna
        apply ha
        rintro ⟨s, hs, -⟩
        exact hna ⟨s, hs⟩
      · rintro ⟨s, hs, hu⟩
        exact hb2 ⟨s, ⟨hs, hmem s hs⟩, fun t ht2 => hu t ht2.1⟩
      · rintro ⟨s, t, hs, ht, hne⟩
        exact hc2 ⟨s, t, ⟨hs, hmem s hs⟩, ⟨ht, hmem t ht⟩, hne⟩

theorem inj_nonzero_surj {α : Type} [Fintype α] (hcard : Fintype.card α = 9)
    (f : α → Cell) (hinj : Function.Injective f) (hnz : ∀ i, f i ≠ 0) :
    ∀ v : Cell, v ≠ 0 → ∃ i, f i = v := by
  intro v hv
  have himage : Finset.univ.image f ⊆
      Finset.univ.filter fun w : Cell => w ≠ 0 := by
    intro w hw
    simp only [Finset.mem_image] at hw
    obtain ⟨i, -, rfl⟩ := hw
    simp [hnz i]
  have hc1 : (Finset.univ.image f).card = 9 := by
    rw [Finset.card_image_of_injective _ hinj, Finset.card_univ, hcard]
  have hc2 : (Finset.univ.filter fun w : Cell => w ≠ 0).card = 9 := by decide
  have heq : Finset.univ.image f = Finset.univ.filter fun w : Cell => w ≠ 0 :=
    Finset.eq_of_subset_of_card_le himage (by omega)
  have hvmem : v ∈ Finset.univ.image f := by
    rw [heq]
    simp [hv]
  obtain ⟨i, -, hi⟩ := Finset.mem_image.1 hvmem
  exact ⟨i, hi⟩

theorem rows_injective {b : Board} (hv : ValidB b) (hc : Complete b)
    (r : Fin 9) : Function.Injective fun c => b r c := by
  intro c1 c2 heq
  by_contra hne
  have hsee : sees r c1 r c2 := ⟨fun h => hne h.2.symm, Or.inl rfl⟩
  exact (validB_iff b).1 hv r c1 r c2 hsee (hc r c1) heq.symm

theorem cols_injective {b : Board} (hv : ValidB b) (hc : Complete b)
    (c : Fin 9) : Function.Injective fun r => b r c := by
  intro r1 r2 heq
  by_contra hne
  have hsee : sees r1 c r2 c := ⟨fun h => hne h.1.symm, Or.inr (Or.inl rfl)⟩
  exact (validB_iff b).1 hv r1 c r2 c hsee (hc r1 c) heq.symm

theorem boxStart_boxIdx (i d : Fin 3) : boxStart (boxIdx i d).val = 3 * i.val := by
  have hd := d.isLt
  simp only [boxIdx, boxStart]
  omega

theorem boxIdx_inj {i : Fin 3} {d1 d2 : Fin 3}
    (h : boxIdx i d1 = boxIdx i d2) : d1 = d2 := by
  have h1 := d1.isLt
  have h2 := d2.isLt
  rw [Fin.ext_iff] at h ⊢
  simp only [boxIdx] at h
  omega

theorem boxes_injective {b : Board} (hv : ValidB b) (hc : Complete b)
    (i j : Fin 3) :
    Function.Injective fun p : Fin 3 × Fin 3 => b (boxIdx i p.1) (boxIdx j p.2) := by
  rintro ⟨d1, e1⟩ ⟨d2, e2⟩ heq
  by_contra hne
  have hsee : sees (boxIdx i d1) (boxIdx j e1) (boxIdx i d2) (boxIdx j e2) := by
    refine ⟨?_, Or.inr (Or.inr ?_)⟩
    · rintro ⟨h1, h2⟩
      exact hne (by rw [boxIdx_inj h1, boxIdx_inj h2])
    · rw [boxStart_boxIdx, boxStart_boxIdx, boxStart_boxIdx, boxStart_boxIdx]
      exact ⟨rfl, rfl⟩
  exact (validB_iff b).1 hv (boxIdx i d1) (boxIdx j e1) (boxIdx i d2)
    (boxIdx j e2) hsee (hc _ _) heq.symm

theorem solved_of_complete_valid {b : Board} (hc : Complete b) (hv : ValidB b) :
    Solved b := by
  refine ⟨hc, ?_, ?_, ?_⟩
  · intro r v hvz
    have hinj := rows_injective hv hc r
    obtain ⟨c, hcv⟩ := inj_nonzero_surj (by simp) _ hinj (fun c => hc r c) v hvz
    exact ⟨c, hcv, fun c' h' => hinj (h'.trans hcv.symm)⟩
  · intro c v hvz
    have hinj := cols_injective hv hc c
    obtain ⟨r, hrv⟩ := inj_nonzero_surj (by simp) _ hinj (fun r => hc r c) v hvz
    exact ⟨r, hrv, fun r' h' => hinj (h'.trans hrv.symm)⟩
  · intro i j v hvz
    have hinj := boxes_injective hv hc i j
    obtain ⟨p, hpv⟩ := inj_nonzero_surj (by simp) _ hinj (fun p => hc _ _) v hvz
    exact ⟨p, hpv, fun p' h' => hinj (h'.trans hpv.symm)⟩

theorem removeCells_extends (target : Nat) :
    ∀ cells b k r c, (removeCells target cells b k).1 r c ≠ 0 →
      (removeCells target cells b k).1 r c = b r c := by
  intro cells
  induction cells with
  | nil => intro b k r c _; rfl
  | cons p rest ih =>
    intro b k r c
    simp only [removeCells]
    by_cases hk : target ≤ k
    · rw [if_pos hk]
      intro _
      rfl
    · rw [if_neg hk]
      by_cases hcs : countSolutions (update b p.1 p.2 0) ≠ 1
      · rw [if_pos hcs, update_update_restore]
        exact ih b k r c
      · rw [if_neg hcs]
        intro hne
        have h1 := ih (update b p.1 p.2 0) (k + 1) r c hne
        rw [h1]
        by_cases hp : r = p.1 ∧ c = p.2
        · obtain ⟨rfl, rfl⟩ := hp
          rw [h1, update_self] at hne
          exact absurd rfl hne
        · exact update_other _ _ _ _ hp

theorem removeCells_count_one (target : Nat) :
    ∀ cells b k, countSolutions b = 1 →
      countSolutions (removeCells target cells b k).1 = 1 := by
  intro cells
  induction cells with
  | nil => intro b k h; exact h
  | cons p rest ih =>
    intro b k h
    simp only [removeCells]
    by_cases hk : target ≤ k
    · rw [if_pos hk]
      exact h
    · rw [if_neg hk]
      by_cases hcs : countSolutions (update b p.1 p.2 0) ≠ 1
      · rw [if_pos hcs, update_update_restore]
        exact ih b k h
      · rw [if_neg hcs]
        push_neg at hcs
        exact ih (update b p.1 p.2 0) (k + 1) hcs

theorem removeCells_spec (target : Nat) :
    ∀ cells b k, cells.Nodup → (∀ p ∈ cells, b p.1 p.2 ≠ 0) →
      numEmpty b = k → k ≤ target →
      numEmpty (removeCells target cells b k).1 =
        (removeCells target cells b k).2.1 ∧
      (removeCells target cells b k).2.1 ≤ target ∧
      ((removeCells target cells b k).2.1 < target →
        (removeCells target cells b k).2.2 = []) := by
  intro cells
  induction cells with
  | nil =>
    intro b k _ _ hnum hk
    exact ⟨hnum, hk, fun _ => rfl⟩
  | cons p rest ih =>
    intro b k hnd hnz hnum hk
    have hndr : rest.Nodup := (List.nodup_cons.1 hnd).2
    have hpnotin : p ∉ rest := (List.nodup_cons.1 hnd).1
    simp only [removeCells]
    by_cases hkt : target ≤ k
    · rw [if_pos hkt]
      refine ⟨hnum, hk, fun h => ?_⟩
      exact absurd (show k < target from h) (by omega)
    · rw [if_neg hkt]
      by_cases hcs : countSolutions (update b p.1 p.2 0) ≠ 1
      · rw [if_pos hcs, update_update_restore]
        exact ih b k hndr (fun q hq => hnz q (List.mem_cons_of_mem _ hq)) hnum hk
      · rw [if_neg hcs]
        apply ih (update b p.1 p.2 0) (k + 1) hndr
        · intro q hq
          have hqp : ¬(q.1 = p.1 ∧ q.2 = p.2) := by
            rintro ⟨h1, h2⟩
            exact hpnotin (by
              have : q = p := Prod.ext h1 h2
              rwa [this] at hq)
          rw [update_other _ _ _ _ hqp]
          exact hnz q (List.mem_cons_of_mem _ hq)
        · rw [numEmpty_update_zero (hnz p (List.mem_cons_self _ _)), hnum]
        · omega

theorem validB_empty : ValidB emptyBoard := fun _ _ h => absurd rfl h

theorem baseGrid_solution : SolutionOf baseGrid emptyBoard := by
  refine ⟨by decide, by decide, ?_⟩
  intro r c h
  exact absurd rfl h

theorem fill_success {sh : Board → List Cell} (hsh : ∀ b, (sh b).Perm nums) :
    (searchGo sh 82 emptyBoard).1 = true := by
  apply searchGo_complete sh (fun b v hv => ((hsh b).mem_iff).2 (mem_nums v hv))
    82 emptyBoard validB_empty (numEmpty_lt_fuel _)
  exact ⟨baseGrid, baseGrid_solution⟩

theorem fill_solution {sh : Board → List Cell} (hsh : ∀ b, (sh b).Perm nums) :
    Complete (searchGo sh 82 emptyBoard).2 ∧ ValidB (searchGo sh 82 emptyBoard).2 :=
  searchGo_sound sh 82 emptyBoard validB_empty (fill_success hsh)

theorem countSolutions_complete {b : Board} (hc : Complete b) :
    countSolutions b = 1 := by
  unfold countSolutions
  have hfe : findEmptyCell b = none := (findEmptyCell_none_iff b).2 hc
  rw [show (82 : Nat) = 81 + 1 from rfl]
  simp [countGo, hfe]

theorem numEmpty_complete {b : Board} (hc : Complete b) : numEmpty b = 0 := by
  unfold numEmpty
  rw [Finset.card_eq_zero, Finset.filter_eq_empty_iff]
  intro p _
  exact hc p.1 p.2

theorem allCells_nodup : allCells.Nodup :=
  allCells_pairwise.imp fun h heq => absurd (heq ▸ h) (rmLt_irrefl _)

/-- C1: for every `Puzzle{givens, solution}` produced by `generate_puzzle`
(under any sequence of shuffles and any removal order), the solution board
is a valid completion of the givens board, it is the only one, and the
cap-at-2 solution count of the givens board is exactly 1. -/
theorem c1_generator_uniqueness (sh : Board → List Cell)
    (cells : List (Fin 9 × Fin 9)) (d : String)
    (hsh : ∀ b, (sh b).Perm nums) :
    SolutionOf (generatePuzzle sh cells d).solution
      (generatePuzzle sh cells d).board ∧
    (∀ s, SolutionOf s (generatePuzzle sh cells d).board →
      s = (generatePuzzle sh cells d).solution) ∧
    countSolutions (generatePuzzle sh cells d).board = 1 := by
  obtain ⟨hcomp, hval⟩ := fill_solution hsh
  have hcount1 : countSolutions (searchGo sh 82 emptyBoard).2 = 1 :=
    countSolutions_complete hcomp
  have hext : ∀ r c,
      (removeCells (targetRemoved d) cells (searchGo sh 82 emptyBoard).2 0).1 r c ≠ 0 →
      (removeCells (targetRemoved d) cells (searchGo sh 82 emptyBoard).2 0).1 r c =
        (searchGo sh 82 emptyBoard).2 r c :=
    removeCells_extends _ cells _ 0
  have hgcount :
      countSolutions
        (removeCells (targetRemoved d) cells (searchGo sh 82 emptyBoard).2 0).1 = 1 :=
    removeCells_count_one _ cells _ 0 hcount1
  have hsolg : SolutionOf (searchGo sh 82 emptyBoard).2
      (removeCells (targetRemoved d) cells (searchGo sh 82 emptyBoard).2 0).1 :=
    ⟨hcomp, hval, fun r c h => (hext r c h).symm⟩
  have hgval : ValidB
      (removeCells (targetRemoved d) cells (searchGo sh 82 emptyBoard).2 0).1 :=
    validB_of_extends hval fun r c h => (hext r c h).symm
  have hcc := countGo_count 82 _ hgval
    (numEmpty_lt_fuel
      (removeCells (targetRemoved d) cells (searchGo sh 82 emptyBoard).2 0).1)
  have huniq : ∀ s, SolutionOf s
      (removeCells (targetRemoved d) cells (searchGo sh 82 emptyBoard).2 0).1 →
      s = (searchGo sh 82 emptyBoard).2 := by
    intro s hs
    rcases pred_trichotomy (fun x : Board => SolutionOf x
        (removeCells (targetRemoved d) cells (searchGo sh 82 emptyBoard).2 0).1) with
      hno | hone | htwo
    · exact absurd ⟨s, hs⟩ hno
    · obtain ⟨u, -, huu⟩ := hone
      exact (huu s hs).trans (huu _ hsolg).symm
    · have h2 := hcc.2.2 htwo
      unfold countSolutions at hgcount
      omega
  exact ⟨hsolg, huniq, hgcount⟩

/-- C1 witness: the generator uniqueness invariant at the identity
shuffle and the row-major removal order, difficulty `easy`. -/
theorem c1_witness :
    SolutionOf (generatePuzzle shId allCells "easy").solution
      (generatePuzzle shId allCells "easy").board ∧
    (∀ s, SolutionOf s (generatePuzzle shId allCells "easy").board →
      s = (generatePuzzle shId allCells "easy").solution) ∧
    countSolutions (generatePuzzle shId allCells "easy").board = 1 :=
  c1_generator_uniqueness shId allCells "easy" fun _ => List.Perm.refl _

/-- C2: `is_valid(board, row, col, value)` returns false iff `value`
occurs at some cell other than `(row, col)` lying in row `row`, in column
`col`, or in the 3×3 aligned box containing `(row, col)`. -/
theorem c2_isValid_characterization (b : Board) (row col : Fin 9) (v : Cell) :
    isValid b row col v = false ↔ ∃ r c, sees row col r c ∧ b r c = v :=
  isValid_false_iff b row col v

/-- C3 counterexample: the all-ones board is complete but invalid, hence
has no valid completion, yet `_count_solutions` returns 1 on it (a
complete board contributes 1 regardless of validity), refuting the claim
for arbitrary boards. -/
theorem c3_counterexample :
    countSolutions all1Board = 1 ∧ ¬∃ s, SolutionOf s all1Board := by
  constructor
  · exact countSolutions_complete (by decide)
  · rintro ⟨s, hcs, hvs, hext⟩
    have h1 : (1 : Cell) ≠ 0 := by decide
    have hs1 : s = all1Board := funext fun r => funext fun c => hext r c h1
    rw [hs1] at hvs
    exact absurd hvs (by decide)

/-- C3 (amended with a validity precondition): for every valid board,
the cap-at-2 solution count is 0 iff the board has no valid completion,
1 iff it has exactly one, and at least 2 iff it has two or more. -/
theorem c3_count_correct (b : Board) (hb : ValidB b) :
    (countSolutions b = 0 ↔ ¬∃ s, SolutionOf s b) ∧
    (countSolutions b = 1 ↔ ∃! s, SolutionOf s b) ∧
    (2 ≤ countSolutions b ↔
      ∃ s t, SolutionOf s b ∧ SolutionOf t b ∧ s ≠ t) := by
  obtain ⟨h0, h1, h2⟩ := countGo_count 82 b hb (numEmpty_lt_fuel b)
  unfold countSolutions
  refine ⟨⟨?_, h0⟩, ⟨?_, h1⟩, ⟨?_, h2⟩⟩
  · intro hc
    rcases pred_trichotomy (fun s : Board => SolutionOf s b) with hno | hone | htwo
    · exact hno
    · have := h1 hone
      omega
    · have := h2 htwo
      omega
  · intro hc
    rcases pred_trichotomy (fun s : Board => SolutionOf s b) with hno | hone | htwo
    · have := h0 hno
      omega
    · exact hone
    · have := h2 htwo
      omega
  · intro hc
    rcases pred_trichotomy (fun s : Board => SolutionOf s b) with hno | hone | htwo
    · have := h0 hno
      omega
    · have := h1 hone
      omega
    · exact htwo

/-- C3 witness: the amended counting theorem applied to the concrete
complete valid board `baseGrid`. -/
theorem c3_count_correct_witness :
    (countSolutions baseGrid = 0 ↔ ¬∃ s, SolutionOf s baseGrid) ∧
    (countSolutions baseGrid = 1 ↔ ∃! s, SolutionOf s baseGrid) ∧
    (2 ≤ countSolutions baseGrid ↔
      ∃ s t, SolutionOf s baseGrid ∧ SolutionOf t baseGrid ∧ s ≠ t) :=
  c3_count_correct baseGrid (by decide)

/-- C4: whenever `solve` returns false, every cell of the board holds the
same value after the call as at entry. -/
theorem c4_solve_restores (b : Board) (h : (solve b).1 = false) :
    ∀ r c, (solve b).2 r c = b r c := by
  intro r c
  have h2 := (searchGo_restore_frame (fun _ => nums) 82 b).1 h
  exact congrFun (congrFun h2 r) c

/-- C4 witness: `solve` fails on the concrete unsolvable board
`demoUnsolvable` and leaves it unchanged. -/
theorem c4_witness :
    (solve demoUnsolvable).1 = false ∧
      ∀ r c, (solve demoUnsolvable).2 r c = demoUnsolvable r c :=
  ⟨by rfl, c4_solve_restores demoUnsolvable (by rfl)⟩

/-- C5 counterexample: on the complete but invalid all-ones board,
`solve` returns true immediately yet the resulting board is not solved
(no row is a permutation of `1..9`), refuting the claim for arbitrary
boards. -/
theorem c5_counterexample :
    (solve all1Board).1 = true ∧ ¬ Solved (solve all1Board).2 := by
  refine ⟨by rfl, ?_⟩
  intro hsolved
  have hrp := hsolved.2.1 0 2 (by decide)
  obtain ⟨c, hc, -⟩ := hrp
  have h1 : (1 : Cell) = 2 := hc
  exact absurd h1 (by decide)

/-- C5 (amended with a validity precondition): for every valid board on
which `solve` returns true, the resulting board is complete and every
row, column and 3×3 box is a permutation of `1..9`. -/
theorem c5_solve_sound (b : Board) (hb : ValidB b) (h : (solve b).1 = true) :
    Solved (solve b).2 := by
  obtain ⟨hcomp, hval⟩ := searchGo_sound (fun _ => nums) 82 b hb h
  exact solved_of_complete_valid hcomp hval

/-- C5 witness: solving the valid board with one empty cell yields a
solved board. -/
theorem c5_solve_sound_witness : Solved (solve demoOneEmpty).2 :=
  c5_solve_sound demoOneEmpty (by decide) (by rfl)

/-- C6: `_count_solutions` leaves every cell of the board it was invoked
on unchanged (each recursive placement is undone before returning, and
the top-level call works on a private clone anyway). -/
theorem c6_count_preserves_board (fuel : Nat) (b : Board) (r c : Fin 9) :
    (countGo fuel b).2 r c = b r c := by
  rw [countGo_restore fuel b]

/-- C7: the removal targets are 40/50/60 for easy/medium/hard and 40 for
any other difficulty string; the generated givens board has at most
`target` empty cells, and fewer only when the break never fired, i.e. the
shuffled pass visited every coordinate. -/
theorem c7_difficulty_targets (sh : Board → List Cell)
    (cells : List (Fin 9 × Fin 9)) (d : String)
    (hsh : ∀ b, (sh b).Perm nums) (hnd : cells.Nodup) :
    targetRemoved "easy" = 40 ∧ targetRemoved "medium" = 50 ∧
    targetRemoved "hard" = 60 ∧
    (d ≠ "easy" → d ≠ "medium" → d ≠ "hard" → targetRemoved d = 40) ∧
    numEmpty (generatePuzzle sh cells d).board ≤ targetRemoved d ∧
    (numEmpty (generatePuzzle sh cells d).board < targetRemoved d →
      (removeCells (targetRemoved d) cells (searchGo sh 82 emptyBoard).2 0).2.2
        = []) := by
  obtain ⟨hcomp, -⟩ := fill_solution hsh
  obtain ⟨heq, hle, hlast⟩ :=
    removeCells_spec (targetRemoved d) cells (searchGo sh 82 emptyBoard).2 0 hnd
      (fun p _ => hcomp p.1 p.2) (numEmpty_complete hcomp) (Nat.zero_le _)
  refine ⟨rfl, rfl, rfl, ?_, ?_, ?_⟩
  · intro h1 h2 h3
    unfold targetRemoved
    rw [if_neg h1, if_neg h2, if_neg h3]
  · show numEmpty
      (removeCells (targetRemoved d) cells (searchGo sh 82 emptyBoard).2 0).1 ≤
      targetRemoved d
    omega
  · intro h
    apply hlast
    have h' : numEmpty
        (removeCells (targetRemoved d) cells (searchGo sh 82 emptyBoard).2 0).1 <
        targetRemoved d := h
    omega

/-- C7 witness: the target/empty-cell bounds at the identity shuffle,
the row-major cell order, and difficulty `easy`. -/
theorem c7_witness :
    targetRemoved "easy" = 40 ∧ targetRemoved "medium" = 50 ∧
    targetRemoved "hard" = 60 ∧
    ("easy" ≠ "easy" → "easy" ≠ "medium" → "easy" ≠ "hard" →
      targetRemoved "easy" = 40) ∧
    numEmpty (generatePuzzle shId allCells "easy").board ≤
      targetRemoved "easy" ∧
    (numEmpty (generatePuzzle shId allCells "easy").board <
        targetRemoved "easy" →
      (removeCells (targetRemoved "easy") allCells
        (searchGo shId 82 emptyBoard).2 0).2.2 = []) :=
  c7_difficulty_targets shId allCells "easy" (fun _ => List.Perm.refl _)
    allCells_nodup

/-- C8: after generation every non-empty cell of the stored original
puzzle agrees with the solution board, and a play move aimed at a cell
that is non-empty in the original puzzle leaves the board unchanged. -/
theorem c8_locked_cells (sh : Board → List Cell) (cells : List (Fin 9 × Fin 9))
    (d : String) (orig bb : Board) (row col : Fin 9) (v : Cell)
    (hlock : orig row col ≠ 0) :
    (∀ r c, (generatePuzzle sh cells d).original r c = 0 ∨
      (generatePuzzle sh cells d).original r c =
        (generatePuzzle sh cells d).solution r c) ∧
    playMove orig bb row col v = bb := by
  constructor
  · intro r c
    by_cases h : (generatePuzzle sh cells d).original r c = 0
    · exact Or.inl h
    · exact Or.inr (removeCells_extends (targetRemoved d) cells
        (searchGo sh 82 emptyBoard).2 0 r c h)
  · unfold playMove
    by_cases h1 : 1 ≤ v.val ∧ v.val ≤ 9
    · rw [if_pos h1, if_pos hlock]
    · rw [if_neg h1]

/-- C8 witness: applied at the identity shuffle and a concrete original
board whose cell `(0,0)` holds `5`. -/
theorem c8_witness :
    (∀ r c, (generatePuzzle shId allCells "easy").original r c = 0 ∨
      (generatePuzzle shId allCells "easy").original r c =
        (generatePuzzle shId allCells "easy").solution r c) ∧
    playMove demoLocked emptyBoard 0 0 3 = emptyBoard :=
  c8_locked_cells shId allCells "easy" demoLocked emptyBoard 0 0 3 (by decide)

/-- C9: `find_empty_cell` returns none exactly when the board is
complete, and otherwise returns the row-major-first empty cell: the cell
is empty and every row-major-earlier cell is non-empty. -/
theorem c9_find_empty_cell (b : Board) :
    (findEmptyCell b = none ↔ Complete b) ∧
    ∀ r c, findEmptyCell b = some (r, c) →
      b r c = 0 ∧ ∀ r' c', rmLt (r', c') (r, c) → b r' c' ≠ 0 :=
  ⟨findEmptyCell_none_iff b, fun _ _ h => findEmptyCell_some h⟩

/-- C9 witness: on the board holding `5` at `(0,0)` only, the scan
returns `(0,1)`, which is empty while the earlier cell `(0,0)` is not. -/
theorem c9_witness :
    demoLocked 0 1 = 0 ∧
      ∀ r' c', rmLt (r', c') (0, 1) → demoLocked r' c' ≠ 0 :=
  (c9_find_empty_cell demoLocked).2 0 1 (by rfl)

/-- C10: `solve` never overwrites a non-empty cell: whatever it returns,
every cell that was non-empty at entry holds the same value after. -/
theorem c10_solve_frame (b : Board) (r c : Fin 9) (h : b r c ≠ 0) :
    (solve b).2 r c = b r c :=
  (searchGo_restore_frame (fun _ => nums) 82 b).2 r c h

/-- C10 witness: the given cell `(0,0)` of `demoLocked` survives
`solve`. -/
theorem c10_witness : (solve demoLocked).2 0 0 = demoLocked 0 0 :=
  c10_solve_frame demoLocked 0 0 (by decide)

end Sudoku
